/-
Verification of the multiglob walk planner and executor (`src/walk.rs`,
`src/builder.rs`, `src/dir.rs`) against its natural-language specification.

The Rust source is shallowly embedded:
  * paths are lists of components (`List String`);
  * `Path::components` is modelled by `pathComponents` (relative paths, with
    Rust's rules: empty segments and interior `.` are dropped, a leading `.`
    and a leading root `/` are kept);
  * `BTreeMap<String, _>` is modelled by a key-sorted association list
    (`PatMap`), ordered by `String` order as in Rust;
  * the black-box `globset` and `walkdir` services (out of scope per the
    spec) are modelled from the spec where claims need them;
  * filesystem syscalls are modelled by an abstract `FS` record of probe
    functions, so theorems quantify over filesystems.
-/
import Mathlib

namespace Multiglob

/-! ## Path model -/

/-- Split a character list on `/`, keeping empty pieces (they are filtered
by `pathComponents`, mirroring Rust's component normalization). -/
def splitSlashAux : List Char → List Char → List (List Char)
  | acc, [] => [acc.reverse]
  | acc, c :: rest =>
    if c = '/' then acc.reverse :: splitSlashAux [] rest
    else splitSlashAux (c :: acc) rest

def splitSlash (s : String) : List String :=
  (splitSlashAux [] s.data).map fun l => String.mk l

/-- Model of `Path::new(pattern).components()` for relative (and `/`-rooted)
paths: occurrences of `.` are normalized away except at the beginning of the
path, empty segments are dropped, `..` is kept as a normal component. -/
def pathComponents (s : String) : List String :=
  let raw := splitSlash s
  let kept := raw.filter fun p => p ≠ "" && p ≠ "."
  if s.data.headD ' ' = '/' then "/" :: kept
  else if raw.headD "" = "." then "." :: kept
  else kept

/-- Model of `parts.iter().collect::<PathBuf>().to_str()` for relative parts
(the `make_path` closure in `WalkPlanNode::insert`). -/
def joinParts (parts : List String) : String :=
  String.intercalate "/" parts

/-- Model of `PathBuf::join` of a single further key onto a possibly empty
relative path (used by `WalkPlanNode::collect`). -/
def pathAppend (p k : String) : String :=
  if p = "" then k else p ++ "/" ++ k

/-- Model of `Path::strip_prefix` on component paths. -/
def stripBase (base p : List String) : Option (List String) :=
  if base.isPrefixOf p then some (p.drop base.length) else none

/-! ## `is_glob_like` (`src/util.rs`) -/

/-- `util::is_glob_like`: the component contains one of `* { } ? [ ]`. -/
def isGlobLike (part : String) : Bool :=
  part.data.any fun c =>
    c = '*' || c = '\x7b' || c = '\x7d' || c = '?' || c = '[' || c = ']'

/-- Does `sub` occur as a prefix of `s`? (character lists) -/
def subAt : List Char → List Char → Bool
  | [], _ => true
  | _ :: _, [] => false
  | c :: cs, d :: ds => c = d && subAt cs ds

/-- Does `sub` occur as a substring of `s`? (model of `str::contains`) -/
def containsSub (sub : List Char) : List Char → Bool
  | [] => subAt sub []
  | c :: cs => subAt sub (c :: cs) || containsSub sub cs

/-- `part.contains("**")`. -/
def hasDoubleStar (part : String) : Bool :=
  containsSub "**".data part.data

/-! ## Plan node (`WalkPlanNode`, `src/walk.rs` lines 23-120) -/

inductive WalkNodeType where
  | path
  | glob
  | walk
deriving DecidableEq, Repr

mutual
/-- `WalkPlanNode { node_type, is_terminal, patterns: BTreeMap<String, _> }`. -/
inductive WalkPlanNode where
  | mk (node_type : WalkNodeType) (is_terminal : Bool) (patterns : PatMap)
/-- The `BTreeMap<String, WalkPlanNode>` of children, as a key-sorted
association list. -/
inductive PatMap where
  | nil
  | cons (key : String) (node : WalkPlanNode) (rest : PatMap)
end

def WalkPlanNode.node_type : WalkPlanNode → WalkNodeType
  | .mk t _ _ => t

def WalkPlanNode.is_terminal : WalkPlanNode → Bool
  | .mk _ b _ => b

def WalkPlanNode.patterns : WalkPlanNode → PatMap
  | .mk _ _ p => p

/-- `WalkPlanNode::default()`. -/
def emptyPlanNode : WalkPlanNode := .mk .path false .nil

/-- `WalkPlanNode::terminal()`. -/
def WalkPlanNode.terminal : WalkPlanNode := .mk .path true .nil

/-- Lexicographic order on strings by code point, as `Ord` on Rust `String`
(UTF-8 byte order coincides with code-point order). -/
def charListLt : List Char → List Char → Bool
  | [], [] => false
  | [], _ :: _ => true
  | _ :: _, [] => false
  | a :: as, b :: bs =>
    if Nat.blt a.toNat b.toNat then true
    else if a = b then charListLt as bs
    else false

def strLtB (a b : String) : Bool := charListLt a.data b.data

def PatMap.lookup : PatMap → String → Option WalkPlanNode
  | .nil, _ => none
  | .cons k' v rest, k => if k = k' then some v else rest.lookup k

/-- `BTreeMap::insert` (replace or insert, keeping keys sorted). -/
def PatMap.insertKV : PatMap → String → WalkPlanNode → PatMap
  | .nil, k, v => .cons k v .nil
  | .cons k' v' rest, k, v =>
    if strLtB k k' then .cons k v (.cons k' v' rest)
    else if k = k' then .cons k v rest
    else .cons k' v' (rest.insertKV k v)

def PatMap.keys : PatMap → List String
  | .nil => []
  | .cons k _ rest => k :: rest.keys

def PatMap.values : PatMap → List WalkPlanNode
  | .nil => []
  | .cons _ v rest => v :: rest.values

def PatMap.toList : PatMap → List (String × WalkPlanNode)
  | .nil => []
  | .cons k v rest => (k, v) :: rest.toList

mutual
/-- `WalkPlanNode::collect`: flatten the subtree into full joined path
strings of all terminal descendants, in map order (pre-order). -/
def WalkPlanNode.collect : WalkPlanNode → String → List String
  | .mk _ _ pats, path => pats.collectMap path
def PatMap.collectMap : PatMap → String → List String
  | .nil, _ => []
  | .cons k v rest, path =>
    ((if v.is_terminal then [pathAppend path k] else []) ++
      v.collect (pathAppend path k)) ++ rest.collectMap path
end

/-- `WalkPlanNode::insert` (`src/walk.rs` lines 56-83). -/
def WalkPlanNode.insert : WalkPlanNode → List String → WalkPlanNode
  | n, [] => .mk n.node_type true n.patterns
  | n, part :: tail =>
    let mkPath := joinParts (part :: tail)
    if n.node_type = .walk then
      .mk .walk n.is_terminal (n.patterns.insertKV mkPath .terminal)
    else if hasDoubleStar part then
      let collected := n.collect ""
      let pats := collected.foldl (fun m p => m.insertKV p .terminal) PatMap.nil
      .mk .walk n.is_terminal (pats.insertKV mkPath .terminal)
    else if isGlobLike part then
      let child := (n.patterns.lookup part).getD emptyPlanNode
      .mk .glob n.is_terminal (n.patterns.insertKV part (child.insert tail))
    else
      let child := (n.patterns.lookup part).getD emptyPlanNode
      .mk n.node_type n.is_terminal (n.patterns.insertKV part (child.insert tail))

/-- `WalkPlanNode::build` (`optimize` is a no-op in the source: its body is
entirely commented out). -/
def WalkPlanNode.build (patterns : List String) : WalkPlanNode :=
  patterns.foldl (fun root p => root.insert (pathComponents p)) emptyPlanNode

/-! ## Compiled plan node (`WalkPlanNodeCompiled`, `src/walk.rs` lines 138-184)

`globset` is a black box per the spec, so glob compilation is abstracted by
an oracle: `globNew k` tells whether `Glob::new(k)` succeeds and
`setBuild ks` whether `GlobSetBuilder::build` succeeds on the successfully
compiled patterns `ks`. The compiled `GlobSet` is represented by the list of
pattern strings it holds. -/

structure GlobOracle where
  globNew : String → Bool
  setBuild : List String → Bool

inductive WalkNodeMatcher where
  | path (paths : List String)
  | walk (globs : List String) (recursive : Bool)

mutual
/-- `WalkPlanNodeCompiled { matcher, is_terminal, destinations: Vec<_> }`. -/
inductive WalkPlanNodeCompiled where
  | mk (matcher : WalkNodeMatcher) (is_terminal : Bool)
      (destinations : CompiledList)
/-- The `Vec<WalkPlanNodeCompiled>` of destinations. -/
inductive CompiledList where
  | nil
  | cons (head : WalkPlanNodeCompiled) (rest : CompiledList)
end

def WalkPlanNodeCompiled.matcher : WalkPlanNodeCompiled → WalkNodeMatcher
  | .mk m _ _ => m

def WalkPlanNodeCompiled.is_terminal : WalkPlanNodeCompiled → Bool
  | .mk _ t _ => t

def WalkPlanNodeCompiled.destinations : WalkPlanNodeCompiled → CompiledList
  | .mk _ _ d => d

def CompiledList.length : CompiledList → Nat
  | .nil => 0
  | .cons _ rest => rest.length + 1

def CompiledList.toList : CompiledList → List WalkPlanNodeCompiled
  | .nil => []
  | .cons d rest => d :: rest.toList

def CompiledList.isNil : CompiledList → Bool
  | .nil => true
  | .cons _ _ => false

mutual
/-- `WalkPlanNodeCompiled::new` (`src/walk.rs` lines 152-183). Glob errors
are opaque, modelled as `Unit`. -/
def compileNode (o : GlobOracle) (skip : Bool) :
    WalkPlanNode → Except Unit WalkPlanNodeCompiled
  | .mk ty term pats =>
    if ty = .path then
      match compilePatsAll o skip pats with
      | .error e => .error e
      | .ok ds => .ok (.mk (.path pats.keys) term ds)
    else
      let keptKeys := pats.keys.filter o.globNew
      if skip = false ∧ pats.keys.any (fun k => !(o.globNew k)) then
        .error ()
      else if o.setBuild keptKeys then
        match compilePatsKept o skip pats with
        | .error e => .error e
        | .ok ds => .ok (.mk (.walk keptKeys (ty == .walk)) term ds)
      else if skip then
        .ok (.mk (.walk [] (ty == .walk)) term .nil)
      else
        .error ()
/-- Recursive compilation of all children (the `Path` branch pushes every
child into `destinations`). -/
def compilePatsAll (o : GlobOracle) (skip : Bool) :
    PatMap → Except Unit CompiledList
  | .nil => .ok .nil
  | .cons _ v rest =>
    match compileNode o skip v with
    | .error e => .error e
    | .ok c =>
      match compilePatsAll o skip rest with
      | .error e => .error e
      | .ok ds => .ok (.cons c ds)
/-- Recursive compilation of the children whose key compiles as a glob (the
glob branch pushes only those into `destinations`). -/
def compilePatsKept (o : GlobOracle) (skip : Bool) :
    PatMap → Except Unit CompiledList
  | .nil => .ok .nil
  | .cons k v rest =>
    if o.globNew k then
      match compileNode o skip v with
      | .error e => .error e
      | .ok c =>
        match compilePatsKept o skip rest with
        | .error e => .error e
        | .ok ds => .ok (.cons c ds)
    else compilePatsKept o skip rest
end

/-- Number of patterns held by a matcher: length of the literal paths list,
or the number of globs in the `GlobSet`. -/
def matcherLen : WalkNodeMatcher → Nat
  | .path ps => ps.length
  | .walk gs _ => gs.length

mutual
/-- The C4 invariant, at every node of a compiled tree: `destinations`
length equals the number of patterns in the matcher. -/
def destInvariant : WalkPlanNodeCompiled → Bool
  | .mk m _ ds => (matcherLen m == ds.length) && ds.allInvariant
def CompiledList.allInvariant : CompiledList → Bool
  | .nil => true
  | .cons d rest => destInvariant d && rest.allInvariant
end

/-- An oracle under which every glob compiles (used for concrete runs). -/
def allOkOracle : GlobOracle := ⟨fun _ => true, fun _ => true⟩

/-! ## Invariants of the plan tree (C5) -/

def PatMap.isNil : PatMap → Bool
  | .nil => true
  | .cons _ _ _ => false

/-- All children of this map are terminal leaves (`is_terminal` set, no
children of their own). -/
def PatMap.allLeaf : PatMap → Bool
  | .nil => true
  | .cons _ v rest => (v.is_terminal && v.patterns.isNil) && rest.allLeaf

mutual
/-- C5 invariant: every node of kind `Walk` has only terminal leaf
children. -/
def walkLeafInv : WalkPlanNode → Bool
  | .mk ty _ pats => (!(ty == .walk) || pats.allLeaf) && pats.allChildLeafInv
def PatMap.allChildLeafInv : PatMap → Bool
  | .nil => true
  | .cons _ v rest => walkLeafInv v && rest.allChildLeafInv
end

/-- A string free of the path separator (a single segment). -/
def noSlash (k : String) : Bool := k.data.all fun c => c != '/'

def PatMap.keysNoSlash : PatMap → Bool
  | .nil => true
  | .cons k _ rest => noSlash k && rest.keysNoSlash

mutual
/-- Companion C5 invariant: at nodes of kind `Path`/`Glob` every child key
is a single path segment; only `Walk` nodes hold fully joined multi-segment
keys. -/
def planKeyInv : WalkPlanNode → Bool
  | .mk ty _ pats => ((ty == .walk) || pats.keysNoSlash) && pats.allChildKeyInv
def PatMap.allChildKeyInv : PatMap → Bool
  | .nil => true
  | .cons _ v rest => planKeyInv v && rest.allChildKeyInv
end

/-! ## Glob matching

Modelled from the spec: the black-box `GlobSet` matching service (§6 pattern
grammar): `*` matches any run of non-separator characters, `?` one
non-separator character, `**` any number of whole segments including zero;
other characters match literally. `matches_into` returns the sorted indices
of all matching patterns. Defined with explicit fuel so it evaluates in the
kernel; the fuel bound `|pattern| + |path| + 1` always suffices since each
step shortens their sum. -/

def globSegMatchAux : Nat → List Char → List Char → Bool
  | 0, _, _ => false
  | fuel + 1, ps, cs =>
    match ps, cs with
    | [], [] => true
    | '*' :: ps', [] => globSegMatchAux fuel ps' []
    | '*' :: ps', c :: cs' =>
      globSegMatchAux fuel ps' (c :: cs') || globSegMatchAux fuel ('*' :: ps') cs'
    | '?' :: ps', _ :: cs' => globSegMatchAux fuel ps' cs'
    | p :: ps', c :: cs' => p = c && globSegMatchAux fuel ps' cs'
    | _, _ => false

/-- One glob segment against one path segment. -/
def globSegMatch (p s : String) : Bool :=
  globSegMatchAux (p.data.length + s.data.length + 1) p.data s.data

def globMatchAux : Nat → List String → List String → Bool
  | 0, _, _ => false
  | fuel + 1, ps, segs =>
    match ps, segs with
    | [], [] => true
    | "**" :: ps', segs' =>
      globMatchAux fuel ps' segs' ||
        (match segs' with
          | [] => false
          | _ :: rest => globMatchAux fuel ("**" :: ps') rest)
    | p :: ps', s :: rest => globSegMatch p s && globMatchAux fuel ps' rest
    | _, _ => false

/-- One glob pattern (a joined string, as stored in the plan keys) against a
relative path given as components. -/
def globPatMatch (glob : String) (path : List String) : Bool :=
  let ps := (splitSlash glob).filter fun p => p ≠ ""
  globMatchAux (ps.length + path.length + 1) ps path

/-- `GlobSet::matches_into`: sorted indices of all patterns matching the
path. -/
def globsetMatches (globs : List String) (path : List String) : List Nat :=
  (List.range globs.length).filter fun i => globPatMatch (globs.getD i "") path

/-! ## Filesystem abstraction

Filesystem syscalls (`fs::symlink_metadata`, `fs::metadata`, `fs::exists`)
and the black-box `walkdir` recursive walker are abstracted into a record of
probe functions over component paths, so walker theorems quantify over
filesystems. `walkStream` gives the full entry/error sequence the configured
`walkdir` iterator would yield for a base, a max depth and the
`follow_root_links` flag (the remaining options are fixed per walker and
folded into the record). -/

structure FSMeta where
  isDir : Bool
  isSymlink : Bool
deriving DecidableEq, Repr

/-- A `walkdir::DirEntry` (black box: only the fields the walker reads). -/
structure WDEntry where
  path : List String
  isDir : Bool
deriving DecidableEq, Repr

structure FS where
  symlinkMeta : List String → Option FSMeta
  metaOf : List String → Option FSMeta
  pathExists : List String → Bool
  walkStream : List String → Nat → Bool → List (Except Nat WDEntry)

/-! ## `DirEntry` (`src/dir.rs`) -/

/-- `DirEntry`: either synthesized from a metadata probe of a literal path
(`DirEntry::from_meta`) or produced by the recursive walker
(`DirEntry::from_walk`). -/
inductive DirEntry where
  | fromMeta (path : List String) (meta : FSMeta) (follow : Bool)
  | fromWalk (e : WDEntry)
deriving DecidableEq, Repr

def DirEntry.path : DirEntry → List String
  | .fromMeta p _ _ => p
  | .fromWalk e => e.path

/-- `DirEntry::file_type().is_dir()` (cached, no syscall). -/
def DirEntry.isDir : DirEntry → Bool
  | .fromMeta _ m _ => m.isDir
  | .fromWalk e => e.isDir

/-! ## `MultiGlobOptions` (`src/builder.rs`) -/

structure MultiGlobOptions where
  follow_links : Bool
  max_depth : Nat
  max_open : Nat
  same_file_system : Bool
  case_insensitive : Bool
deriving DecidableEq, Repr

/-- The `Default` impl (`usize::MAX` for `max_depth`). -/
def defaultOpts : MultiGlobOptions :=
  { follow_links := false, max_depth := 18446744073709551615, max_open := 10,
    same_file_system := false, case_insensitive := false }

/-! ## `NodeWalker` (`src/walk.rs` lines 214-375) -/

inductive NodeWalkerState where
  | path (paths : List (List String)) (index : Nat)
  | walk (globset : List String) (stream : List (Except Nat WDEntry))
      (base_checked : Bool)

structure NodeWalker where
  base : List String
  state : NodeWalkerState
  destinations : List WalkPlanNodeCompiled
  opts : MultiGlobOptions
  yield_self : Bool

/-- `NodeWalker::new` (`src/walk.rs` lines 238-271). The `walkdir_fn` thunk
is replaced by reading the configured stream off the abstract filesystem. -/
def NodeWalker.new (fs : FS) (node : WalkPlanNodeCompiled) (base : List String)
    (is_root : Bool) (opts : MultiGlobOptions) (starting_node : Bool) :
    NodeWalker :=
  let state : NodeWalkerState :=
    match node.matcher with
    | .path paths => .path (paths.map fun p => base ++ pathComponents p) 0
    | .walk globs recursive =>
      let maxDepth := if recursive then opts.max_depth else 1
      .walk globs (fs.walkStream base maxDepth is_root) (!starting_node)
  { base := base, state := state, destinations := node.destinations.toList,
    opts := opts, yield_self := starting_node && node.is_terminal }

structure NodeWalkerOutput where
  terminal : Option DirEntry
  nodes : List NodeWalker

def emptyCompiled : WalkPlanNodeCompiled := .mk (.path []) false .nil

/-- The candidate-dispatch loop of `NodeWalker::next` (`src/walk.rs` lines
352-368): `entryOpt` is the takeable `Option<DirEntry>` slot. -/
def dispatchStep (fs : FS) (opts : MultiGlobOptions)
    (dests : List WalkPlanNodeCompiled) (epath : List String) (is_dir : Bool) :
    List Nat → Option DirEntry → NodeWalkerOutput → NodeWalkerOutput
  | [], _, out => out
  | i :: rest, entryOpt, out =>
    let dst := dests.getD i emptyCompiled
    let claimed := dst.is_terminal && out.terminal.isNone
    let entryOpt' := if claimed then none else entryOpt
    let term' := if claimed then entryOpt else out.terminal
    let nodes' :=
      if !dst.destinations.isNil && is_dir then
        out.nodes ++ [NodeWalker.new fs dst epath false opts false]
      else out.nodes
    dispatchStep fs opts dests epath is_dir rest entryOpt' ⟨term', nodes'⟩

/-- Candidate dispatch for one candidate entry with its matched destination
indices (`src/walk.rs` lines 346-368). -/
def dispatch (fs : FS) (opts : MultiGlobOptions)
    (dests : List WalkPlanNodeCompiled) (entry : DirEntry) (idx : List Nat) :
    NodeWalkerOutput :=
  dispatchStep fs opts dests entry.path entry.isDir idx (some entry) ⟨none, []⟩

/-- Result of one iteration of the `loop` in `NodeWalker::next`: either the
function returns (`ret`), or the iteration ended in `continue` (`again`). -/
inductive StepRes where
  | ret (r : Option (Except Nat NodeWalkerOutput)) (w : NodeWalker)
  | again (w : NodeWalker)

/-- One iteration of the `loop` of `NodeWalker::next` (`src/walk.rs` lines
277-374). -/
def NodeWalker.nextStep (fs : FS) (w : NodeWalker) : StepRes :=
  if w.yield_self then
    let w' := { w with yield_self := false }
    match fs.metaOf w.base with
    | none => .again w'
    | some meta =>
      match fs.symlinkMeta w.base with
      | none => .again w'
      | some m2 =>
        .ret (some (.ok ⟨some (.fromMeta w.base meta m2.isSymlink), []⟩)) w'
  else
    match w.state with
    | .path paths index =>
      if paths.length ≤ index then .ret none w
      else
        let path := paths.getD index []
        let w' := { w with state := .path paths (index + 1) }
        match fs.symlinkMeta path with
        | none => .again w'
        | some meta =>
          let follow := meta.isSymlink && w.opts.follow_links
          match (if follow then fs.metaOf path else some meta) with
          | none => .again w'
          | some meta' =>
            let out :=
              dispatch fs w.opts w.destinations (.fromMeta path meta' follow)
                [index]
            if out.terminal.isSome || !out.nodes.isEmpty then
              .ret (some (.ok out)) w'
            else .again w'
    | .walk globset stream base_checked =>
      if !base_checked && !(fs.pathExists w.base) then .ret none w
      else
        match stream with
        | [] => .ret none { w with state := .walk globset [] true }
        | .error e :: rest =>
          .ret (some (.error e)) { w with state := .walk globset rest true }
        | .ok we :: rest =>
          let w' := { w with state := .walk globset rest true }
          match stripBase w.base we.path with
          | none => .again w'
          | some rel =>
            let idx := globsetMatches globset rel
            if idx.isEmpty then .again w'
            else
              let out := dispatch fs w.opts w.destinations (.fromWalk we) idx
              if out.terminal.isSome || !out.nodes.isEmpty then
                .ret (some (.ok out)) w'
              else .again w'

/-- Work remaining in a walker state: each `continue` strictly decreases
it. -/
def stateMeasure : NodeWalkerState → Nat
  | .path paths index => paths.length - index
  | .walk _ stream _ => stream.length

def NodeWalker.measureW (w : NodeWalker) : Nat :=
  (if w.yield_self then 1 else 0) + stateMeasure w.state

def nextAux (fs : FS) :
    Nat → NodeWalker → Option (Except Nat NodeWalkerOutput) × NodeWalker
  | 0, w => (none, w)
  | fuel + 1, w =>
    match w.nextStep fs with
    | .ret r w' => (r, w')
    | .again w' => nextAux fs fuel w'

/-- `NodeWalker::next`: iterate the loop; `measureW + 1` iterations always
suffice (`nextStep_again_measure` below). -/
def NodeWalker.next (fs : FS) (w : NodeWalker) :
    Option (Except Nat NodeWalkerOutput) × NodeWalker :=
  nextAux fs (w.measureW + 1) w

/-! ## `MultiGlobWalker` (`src/walk.rs` lines 383-434)

The stack is a list whose head is the top (the last element of the Rust
`Vec`); `Vec::push` is cons, `Vec::append(nodes)` prepends
`nodes.reverse`. -/

structure MultiGlobWalker where
  opts : MultiGlobOptions
  stack : List NodeWalker

/-- One iteration of the `while` loop of `MultiGlobWalker::next`: `none`
when the stack is empty (the iterator returns `None`), otherwise the
optionally emitted item and the new stack. -/
def mgStep (fs : FS) :
    List NodeWalker → Option (Option (Except Nat DirEntry) × List NodeWalker)
  | [] => none
  | w :: rest =>
    match w.next fs with
    | (none, _) => some (none, rest)
    | (some (.error e), w') => some (some (.error e), w' :: rest)
    | (some (.ok out), w') =>
      some (out.terminal.map Except.ok, out.nodes.reverse ++ w' :: rest)

/-- `MultiGlobWalker::next` (`src/walk.rs` lines 419-433), fuelled. -/
def mgNextAux (fs : FS) :
    Nat → List NodeWalker → Option (Except Nat DirEntry) × List NodeWalker
  | 0, s => (none, s)
  | fuel + 1, s =>
    match mgStep fs s with
    | none => (none, s)
    | some (some item, s') => (some item, s')
    | some (none, s') => mgNextAux fs fuel s'

/-- Drain the whole iterator (fuelled), collecting every yielded item. -/
def mgRunAux (fs : FS) :
    Nat → List NodeWalker → List (Except Nat DirEntry) × List NodeWalker
  | 0, s => ([], s)
  | fuel + 1, s =>
    match mgStep fs s with
    | none => ([], s)
    | some (itemO, s') =>
      let (items, sf) := mgRunAux fs fuel s'
      (itemO.toList ++ items, sf)

/-- `MultiGlobWalker::add` (`src/walk.rs` lines 393-409). -/
def MultiGlobWalker.add (fs : FS) (o : GlobOracle) (mg : MultiGlobWalker)
    (base : List String) (is_root : Bool) (patterns : List String)
    (skip : Bool) : Except Unit MultiGlobWalker :=
  match compileNode o skip (WalkPlanNode.build patterns) with
  | .error e => .error e
  | .ok node =>
    .ok { mg with
          stack := NodeWalker.new fs node base is_root mg.opts true :: mg.stack }

/-- `MultiGlobWalker::rev`. -/
def MultiGlobWalker.rev (mg : MultiGlobWalker) : MultiGlobWalker :=
  { mg with stack := mg.stack.reverse }

/-- `MultiGlobBuilder::impl_build` (`src/builder.rs` lines 63-76), over the
group list produced by the out-of-scope clustering preprocessor (each group:
a relative base and its patterns). -/
def implBuild (fs : FS) (o : GlobOracle) (selfBase : List String)
    (opts : MultiGlobOptions) (groups : List (List String × List String))
    (skip : Bool) : Except Unit MultiGlobWalker :=
  let start : Except Unit MultiGlobWalker := .ok ⟨opts, []⟩
  let folded := groups.foldl
    (fun acc g =>
      match acc with
      | .error e => .error e
      | .ok mg =>
        MultiGlobWalker.add fs o mg (selfBase ++ g.1) (g.1 = []) g.2 skip)
    start
  match folded with
  | .error e => .error e
  | .ok mg => .ok mg.rev

/-! ## Concrete fixtures

A small filesystem `fsFix` with tree `r/ab/{x,y}` (`ab` a directory, `x`,
`y` plain files, no symlinks), its `walkdir` streams listed in sorted
pre-order as the sorted recursive walker yields them, plus a few concrete
walkers. Used for counterexamples and witnesses. -/

def fsFix : FS where
  symlinkMeta p :=
    if p = ["r"] || p = ["r", "ab"] then some ⟨true, false⟩
    else if p = ["r", "ab", "x"] || p = ["r", "ab", "y"] then
      some ⟨false, false⟩
    else none
  metaOf p :=
    if p = ["r"] || p = ["r", "ab"] then some ⟨true, false⟩
    else if p = ["r", "ab", "x"] || p = ["r", "ab", "y"] then
      some ⟨false, false⟩
    else none
  pathExists p :=
    p = ["r"] || p = ["r", "ab"] || p = ["r", "ab", "x"] ||
      p = ["r", "ab", "y"]
  walkStream base maxDepth _ :=
    if base = ["r"] && maxDepth = 1 then
      [.ok ⟨["r"], true⟩, .ok ⟨["r", "ab"], true⟩]
    else if base = ["r", "ab"] && maxDepth = 1 then
      [.ok ⟨["r", "ab"], true⟩, .ok ⟨["r", "ab", "x"], false⟩,
        .ok ⟨["r", "ab", "y"], false⟩]
    else []

/-- The walker stack of the top-level walker built over `fsFix` for the
single pattern group `["a*/x", "ab*/y"]` rooted at `r`. -/
def stackFix : List NodeWalker :=
  match implBuild fsFix allOkOracle ["r"] defaultOpts
      [([], ["a*/x", "ab*/y"])] false with
  | .ok mg => mg.stack
  | .error _ => []

/-- An exhausted walker (empty stream). -/
def wDone : NodeWalker :=
  ⟨["r"], .walk [] [] true, [], defaultOpts, false⟩

/-- A walker whose next pull hits a walkdir error. -/
def wErr : NodeWalker :=
  ⟨["r"], .walk [] [.error 7] true, [], defaultOpts, false⟩

/-- A literal-path walker about to yield `r/ab/y` as a terminal entry. -/
def wTermY : NodeWalker :=
  ⟨["r", "ab"], .path [["r", "ab", "y"]] 0, [.mk (.path []) true .nil],
    defaultOpts, false⟩

/-- A literal-path walker probing a path missing from `fsFix`. -/
def wMissZ : NodeWalker :=
  ⟨["r"], .path [["r", "zz"]] 0, [.mk (.path []) true .nil],
    defaultOpts, false⟩

/-- The compiled plan of the group `["a*/x", "ab*/y"]`. -/
def nodeFix : WalkPlanNodeCompiled :=
  match compileNode allOkOracle false (WalkPlanNode.build ["a*/x", "ab*/y"])
    with
  | .ok c => c
  | .error _ => emptyCompiled

/-- The group-root walker of `stackFix`. -/
def rootFix : NodeWalker :=
  NodeWalker.new fsFix nodeFix ["r"] true defaultOpts true

/-- The output of the first pull of `rootFix` (two spawned children, no
terminal). -/
def outRoot : NodeWalkerOutput :=
  match rootFix.next fsFix with
  | (some (.ok out), _) => out
  | _ => ⟨none, []⟩

def rootAfter : NodeWalker := (rootFix.next fsFix).2

def entryY : DirEntry := .fromMeta ["r", "ab", "y"] ⟨false, false⟩ false

def wTermYAfter : NodeWalker :=
  ⟨["r", "ab"], .path [["r", "ab", "y"]] 1, [.mk (.path []) true .nil],
    defaultOpts, false⟩

example : pathComponents "" = [] := rfl
example : pathComponents "." = ["."] := rfl
example : pathComponents "./a" = [".", "a"] := rfl
example : pathComponents "a/./b" = ["a", "b"] := rfl
example : pathComponents "a//b/" = ["a", "b"] := rfl
example : pathComponents "../x/y" = ["..", "x", "y"] := rfl
example : WalkPlanNode.build [""] = .mk .path true .nil := rfl
example : WalkPlanNode.build ["."] =
    .mk .path false (.cons "." (.mk .path true .nil) .nil) := rfl

/-! ## Walker-loop lemmas -/

theorem nextStep_again_measure (fs : FS) (w w' : NodeWalker)
    (h : w.nextStep fs = .again w') : w'.measureW < w.measureW := by
  unfold NodeWalker.nextStep at h
  by_cases hy : w.yield_self = true
  · simp only [hy, if_true] at h
    cases hm : fs.metaOf w.base with
    | none =>
      simp only [hm] at h
      injection h with h1
      subst h1
      simp [NodeWalker.measureW, hy]
    | some m =>
      cases hm2 : fs.symlinkMeta w.base with
      | none =>
        simp only [hm, hm2] at h
        injection h with h1
        subst h1
        simp [NodeWalker.measureW, hy]
      | some m2 =>
        simp only [hm, hm2] at h
        exact StepRes.noConfusion h
  · simp only [Bool.not_eq_true] at hy
    simp only [hy, Bool.false_eq_true, if_false] at h
    cases hst : w.state with
    | path paths index =>
      simp only [hst] at h
      by_cases hle : paths.length ≤ index
      · simp only [hle, if_true] at h
        exact StepRes.noConfusion h
      · simp only [hle, if_false] at h
        cases hm : fs.symlinkMeta (paths.getD index []) with
        | none =>
          simp only [hm] at h
          injection h with h1
          subst h1
          simp only [NodeWalker.measureW, hy, hst, stateMeasure,
            Bool.false_eq_true, if_false]
          omega
        | some m =>
          simp only [hm] at h
          cases hm2 : (if m.isSymlink && w.opts.follow_links then
              fs.metaOf (paths.getD index []) else some m) with
          | none =>
            simp only [hm2] at h
            injection h with h1
            subst h1
            simp only [NodeWalker.measureW, hy, hst, stateMeasure,
              Bool.false_eq_true, if_false]
            omega
          | some m' =>
            simp only [hm2] at h
            split at h
            · exact StepRes.noConfusion h
            · injection h with h1
              subst h1
              simp only [NodeWalker.measureW, hy, hst, stateMeasure,
                Bool.false_eq_true, if_false]
              omega
    | walk globset stream base_checked =>
      simp only [hst] at h
      split at h
      · exact StepRes.noConfusion h
      · cases stream with
        | nil => exact StepRes.noConfusion h
        | cons hd rest =>
          cases hd with
          | error e => exact StepRes.noConfusion h
          | ok we =>
            simp only at h
            cases hsp : stripBase w.base we.path with
            | none =>
              simp only [hsp] at h
              injection h with h1
              subst h1
              simp only [NodeWalker.measureW, hy, hst, stateMeasure,
                Bool.false_eq_true, if_false, List.length_cons]
              omega
            | some rel =>
              simp only [hsp] at h
              split at h
              · injection h with h1
                subst h1
                simp only [NodeWalker.measureW, hy, hst, stateMeasure,
                  Bool.false_eq_true, if_false, List.length_cons]
                omega
              · split at h
                · exact StepRes.noConfusion h
                · injection h with h1
                  subst h1
                  simp only [NodeWalker.measureW, hy, hst, stateMeasure,
                    Bool.false_eq_true, if_false, List.length_cons]
                  omega

theorem nextAux_stable (fs : FS) :
    ∀ (f1 f2 : Nat) (w : NodeWalker), w.measureW < f1 → w.measureW < f2 →
      nextAux fs f1 w = nextAux fs f2 w := by
  intro f1
  induction f1 with
  | zero => intro f2 w h1 _; omega
  | succ f1 ih =>
    intro f2 w h1 h2
    cases f2 with
    | zero => omega
    | succ f2 =>
      simp only [nextAux]
      cases hs : w.nextStep fs with
      | ret r w' => rfl
      | again w' =>
        have hlt := nextStep_again_measure fs w w' hs
        exact ih f2 w' (by omega) (by omega)

theorem nextAux_eq_next (fs : FS) (fuel : Nat) (w : NodeWalker)
    (h : w.measureW < fuel) : nextAux fs fuel w = w.next fs :=
  nextAux_stable fs fuel (w.measureW + 1) w h (by omega)

/-! ## Claim C6 -/

/-- C6: top-level iteration protocol of `MultiGlobWalker::next`: with an
empty stack the iterator returns `None`; a `None` result from the top
walker pops it and the loop continues; an `Err` result is returned as the
iterator's next item with the erring walker left on the stack (so a later
call resumes it); an `Ok` result first appends every newly spawned child
walker to the stack and then yields the terminal entry when present,
otherwise the loop continues. -/
theorem C6_iteration_protocol :
    (∀ (fs : FS) (fuel : Nat), mgNextAux fs fuel [] = (none, [])) ∧
    (∀ (fs : FS) (fuel : Nat) (w : NodeWalker) (rest : List NodeWalker)
        (w2 : NodeWalker), w.next fs = (none, w2) →
      mgNextAux fs (fuel + 1) (w :: rest) = mgNextAux fs fuel rest) ∧
    (∀ (fs : FS) (fuel : Nat) (w : NodeWalker) (rest : List NodeWalker)
        (e : Nat) (w' : NodeWalker), w.next fs = (some (.error e), w') →
      mgNextAux fs (fuel + 1) (w :: rest) = (some (.error e), w' :: rest)) ∧
    (∀ (fs : FS) (fuel : Nat) (w : NodeWalker) (rest : List NodeWalker)
        (out : NodeWalkerOutput) (w' : NodeWalker) (t : DirEntry),
      w.next fs = (some (.ok out), w') → out.terminal = some t →
      mgNextAux fs (fuel + 1) (w :: rest) =
        (some (.ok t), out.nodes.reverse ++ w' :: rest)) ∧
    (∀ (fs : FS) (fuel : Nat) (w : NodeWalker) (rest : List NodeWalker)
        (out : NodeWalkerOutput) (w' : NodeWalker),
      w.next fs = (some (.ok out), w') → out.terminal = none →
      mgNextAux fs (fuel + 1) (w :: rest) =
        mgNextAux fs fuel (out.nodes.reverse ++ w' :: rest)) := by
  refine ⟨?_, ?_, ?_, ?_, ?_⟩
  · intro fs fuel
    cases fuel <;> rfl
  · intro fs fuel w rest w2 h
    simp only [mgNextAux, mgStep, h]
  · intro fs fuel w rest e w' h
    simp only [mgNextAux, mgStep, h]
  · intro fs fuel w rest out w' t h ht
    simp only [mgNextAux, mgStep, h, ht, Option.map]
  · intro fs fuel w rest out w' h ht
    simp only [mgNextAux, mgStep, h, ht, Option.map]

/-- Witness: the five protocol cases of C6 at concrete walkers over
`fsFix`. -/
theorem C6_iteration_protocol_witness :
    mgNextAux fsFix 5 [] = (none, []) ∧
    mgNextAux fsFix 6 [wDone] = mgNextAux fsFix 5 [] ∧
    mgNextAux fsFix 6 [wErr] = (some (.error 7), [wDone]) ∧
    mgNextAux fsFix 6 [wTermY] = (some (.ok entryY), [wTermYAfter]) ∧
    mgNextAux fsFix 6 [rootFix] =
      mgNextAux fsFix 5 (outRoot.nodes.reverse ++ [rootAfter]) :=
  ⟨C6_iteration_protocol.1 fsFix 5,
   C6_iteration_protocol.2.1 fsFix 5 wDone [] wDone rfl,
   C6_iteration_protocol.2.2.1 fsFix 5 wErr [] 7 wDone rfl,
   C6_iteration_protocol.2.2.2.1 fsFix 5 wTermY [] ⟨some entryY, []⟩
     wTermYAfter entryY rfl rfl,
   C6_iteration_protocol.2.2.2.2 fsFix 5 rootFix [] outRoot rootAfter rfl
     rfl⟩

/-! ## Claim C7 -/

/-- Helper: a walker in `Walk` state with an unchecked missing base returns
`None` and leaves its state (hence the stream) untouched. -/
theorem next_walk_unchecked_missing (fs : FS) (w : NodeWalker)
    (globs : List String) (stream : List (Except Nat WDEntry))
    (hst : w.state = .walk globs stream false)
    (hx : fs.pathExists w.base = false) (hmeta : fs.metaOf w.base = none) :
    (w.next fs).1 = none ∧ (w.next fs).2.state = w.state := by
  by_cases hy : w.yield_self = true
  · have hmw : w.measureW = stateMeasure w.state + 1 := by
      simp [NodeWalker.measureW, hy, Nat.add_comm]
    have hstep : w.nextStep fs = .again { w with yield_self := false } := by
      unfold NodeWalker.nextStep
      simp [hy, hmeta]
    have hstep2 : ({ w with yield_self := false } : NodeWalker).nextStep fs =
        .ret none { w with yield_self := false } := by
      unfold NodeWalker.nextStep
      simp [hst, hx]
    rw [NodeWalker.next, hmw]
    simp only [nextAux, hstep, hstep2]
    exact ⟨trivial, trivial⟩
  · simp only [Bool.not_eq_true] at hy
    have hstep : w.nextStep fs = .ret none w := by
      unfold NodeWalker.nextStep
      simp [hy, hst, hx]
    rw [NodeWalker.next]
    simp only [nextAux, hstep]
    exact ⟨trivial, trivial⟩

/-- C7: a group-root walker (`starting_node = true`) in `Walk` state whose
base does not exist returns `None` from the first `next()` without yielding
an error or entry, and never pulls the underlying recursive walker (its
stream is untouched). -/
theorem C7_missing_base (fs : FS) (node : WalkPlanNodeCompiled)
    (base : List String) (is_root : Bool) (opts : MultiGlobOptions)
    (globs : List String) (rec : Bool) (hm : node.matcher = .walk globs rec)
    (hx : fs.pathExists base = false) (hmeta : fs.metaOf base = none) :
    ((NodeWalker.new fs node base is_root opts true).next fs).1 = none ∧
    ((NodeWalker.new fs node base is_root opts true).next fs).2.state =
      .walk globs
        (fs.walkStream base (if rec then opts.max_depth else 1) is_root)
        false := by
  have hb : (NodeWalker.new fs node base is_root opts true).base = base := by
    simp [NodeWalker.new]
  have hst : (NodeWalker.new fs node base is_root opts true).state =
      .walk globs
        (fs.walkStream base (if rec then opts.max_depth else 1) is_root)
        false := by
    simp [NodeWalker.new, hm]
  have h := next_walk_unchecked_missing fs
    (NodeWalker.new fs node base is_root opts true) globs
    (fs.walkStream base (if rec then opts.max_depth else 1) is_root) hst
    (by rw [hb]; exact hx) (by rw [hb]; exact hmeta)
  exact ⟨h.1, h.2.trans hst⟩

/-- A filesystem with no entries at all. -/
def fsEmpty : FS :=
  ⟨fun _ => none, fun _ => none, fun _ => false, fun _ _ _ => [.error 3]⟩

/-- A compiled node with a recursive walk matcher. -/
def nodeWalkFix : WalkPlanNodeCompiled := .mk (.walk ["**"] true) true .nil

/-- Witness for C7: over the empty filesystem, the group root for `**`
rooted at `q` yields nothing and leaves the (erroring) stream unread. -/
theorem C7_missing_base_witness :
    ((NodeWalker.new fsEmpty nodeWalkFix ["q"] true defaultOpts true).next
        fsEmpty).1 = none ∧
    ((NodeWalker.new fsEmpty nodeWalkFix ["q"] true defaultOpts true).next
        fsEmpty).2.state =
      .walk ["**"]
        (fsEmpty.walkStream ["q"]
          (if true then defaultOpts.max_depth else 1) true) false :=
  C7_missing_base fsEmpty nodeWalkFix ["q"] true defaultOpts ["**"] true rfl
    rfl rfl

/-! ## Claim C8 -/

/-- C8: in `Path` state, each loop iteration probes `symlink_metadata` on
the path at the cursor and advances the cursor; on probe failure the path is
silently skipped (the iteration `continue`s, producing neither an entry nor
an error); when the probe finds a symlink and `follow_links` is on, a
`metadata` probe is made and on its failure the path is likewise skipped;
otherwise exactly one candidate entry is produced, carrying the single
destination index `cursor - 1`, and dispatched. -/
theorem C8_path_probe (fs : FS) (w : NodeWalker) (paths : List (List String))
    (index : Nat) (hst : w.state = .path paths index)
    (hys : w.yield_self = false) (hlt : index < paths.length) :
    (fs.symlinkMeta (paths.getD index []) = none →
      w.nextStep fs = .again { w with state := .path paths (index + 1) }) ∧
    (∀ m : FSMeta, fs.symlinkMeta (paths.getD index []) = some m →
      (m.isSymlink && w.opts.follow_links) = true →
      fs.metaOf (paths.getD index []) = none →
      w.nextStep fs = .again { w with state := .path paths (index + 1) }) ∧
    (∀ m m' : FSMeta, fs.symlinkMeta (paths.getD index []) = some m →
      (if m.isSymlink && w.opts.follow_links then
          fs.metaOf (paths.getD index []) else some m) = some m' →
      w.nextStep fs =
        (let out := dispatch fs w.opts w.destinations
            (.fromMeta (paths.getD index []) m'
              (m.isSymlink && w.opts.follow_links)) [index]
         if out.terminal.isSome || !out.nodes.isEmpty then
           .ret (some (.ok out)) { w with state := .path paths (index + 1) }
         else .again { w with state := .path paths (index + 1) })) := by
  have hle : ¬ (paths.length ≤ index) := by omega
  refine ⟨?_, ?_, ?_⟩
  · intro hm
    unfold NodeWalker.nextStep
    simp only [hys, Bool.false_eq_true, if_false, hst, hle, hm]
  · intro m hm hf hm2
    unfold NodeWalker.nextStep
    simp only [hys, Bool.false_eq_true, if_false, hst, hle, hm, hf, if_true,
      hm2]
  · intro m m' hm hm2
    unfold NodeWalker.nextStep
    simp only [hys, Bool.false_eq_true, if_false, hst, hle, hm, hm2]

/-- Witness for C8: the probe-failure case at the concrete walker `wMissZ`
(literal path `r/zz` missing from `fsFix`). -/
theorem C8_path_probe_witness :
    wMissZ.nextStep fsFix =
      .again { wMissZ with state := .path [["r", "zz"]] 1 } :=
  (C8_path_probe fsFix wMissZ [["r", "zz"]] 0 rfl rfl (by decide)).1 rfl

/-! ## Claim C9 -/

/-- Helper: the walker carried by a step result. -/
def StepRes.walker : StepRes → NodeWalker
  | .ret _ w => w
  | .again w => w

/-- Helper: a step of a walker whose `yield_self` flag is unset never sets
it (no branch of `NodeWalker::next` writes `true` into it). -/
theorem nextStep_not_yield (fs : FS) (w : NodeWalker)
    (h0 : w.yield_self = false) :
    ∀ res : StepRes, w.nextStep fs = res → res.walker.yield_self = false := by
  intro res h
  unfold NodeWalker.nextStep at h
  simp only [h0, Bool.false_eq_true, if_false] at h
  cases hst : w.state with
  | path paths index =>
    simp only [hst] at h
    by_cases hle : paths.length ≤ index
    · simp only [hle, if_true] at h
      subst h
      exact h0
    · simp only [hle, if_false] at h
      cases hm : fs.symlinkMeta (paths.getD index []) with
      | none =>
        simp only [hm] at h
        subst h
        simpa [StepRes.walker] using h0
      | some m =>
        simp only [hm] at h
        cases hm2 : (if m.isSymlink && w.opts.follow_links then
            fs.metaOf (paths.getD index []) else some m) with
        | none =>
          simp only [hm2] at h
          subst h
          simpa [StepRes.walker] using h0
        | some m' =>
          simp only [hm2] at h
          split at h <;> (subst h; simpa [StepRes.walker] using h0)
  | walk globset stream base_checked =>
    simp only [hst] at h
    split at h
    · subst h
      simpa [StepRes.walker] using h0
    · cases stream with
      | nil =>
        subst h
        simpa [StepRes.walker] using h0
      | cons hd rest =>
        cases hd with
        | error e =>
          subst h
          simpa [StepRes.walker] using h0
        | ok we =>
          simp only at h
          cases hsp : stripBase w.base we.path with
          | none =>
            simp only [hsp] at h
            subst h
            simpa [StepRes.walker] using h0
          | some rel =>
            simp only [hsp] at h
            split at h
            · subst h
              simpa [StepRes.walker] using h0
            · split at h <;> (subst h; simpa [StepRes.walker] using h0)

/-- Helper: `next` never sets an unset `yield_self` flag. -/
theorem nextAux_not_yield (fs : FS) :
    ∀ (fuel : Nat) (w : NodeWalker), w.yield_self = false →
      ((nextAux fs fuel w).2).yield_self = false := by
  intro fuel
  induction fuel with
  | zero => intro w h; exact h
  | succ fuel ih =>
    intro w h
    simp only [nextAux]
    cases hs : w.nextStep fs with
    | ret r w' => exact nextStep_not_yield fs w h _ hs
    | again w' => exact ih w' (nextStep_not_yield fs w h _ hs)

/-- C9: a walker built as a group root (`starting_node = true`) over a
terminal compiled node self-emits: the very first `next()` yields the base
itself as a one-shot terminal entry built from one `metadata` and one
`symlink_metadata` probe, and clears the flag, which no later step ever
sets again (so self-emission happens exactly once); walkers that are not
group roots, or whose node is not terminal, never carry the flag. -/
theorem C9_self_emission :
    (∀ (fs : FS) (node : WalkPlanNodeCompiled) (base : List String)
        (is_root : Bool) (opts : MultiGlobOptions) (m m2 : FSMeta),
      node.is_terminal = true → fs.metaOf base = some m →
      fs.symlinkMeta base = some m2 →
      (NodeWalker.new fs node base is_root opts true).next fs =
        (some (.ok ⟨some (.fromMeta base m m2.isSymlink), []⟩),
          { NodeWalker.new fs node base is_root opts true with
              yield_self := false })) ∧
    (∀ (fs : FS) (node : WalkPlanNodeCompiled) (base : List String)
        (is_root : Bool) (opts : MultiGlobOptions),
      (NodeWalker.new fs node base is_root opts false).yield_self = false) ∧
    (∀ (fs : FS) (node : WalkPlanNodeCompiled) (base : List String)
        (is_root : Bool) (opts : MultiGlobOptions),
      node.is_terminal = false →
      (NodeWalker.new fs node base is_root opts true).yield_self = false) ∧
    (∀ (fs : FS) (w : NodeWalker), w.yield_self = false →
      ((w.next fs).2).yield_self = false) := by
  refine ⟨?_, ?_, ?_, ?_⟩
  · intro fs node base is_root opts m m2 hterm hmeta hsym
    have hy : (NodeWalker.new fs node base is_root opts true).yield_self =
        true := by
      simp [NodeWalker.new, hterm]
    have hb : (NodeWalker.new fs node base is_root opts true).base = base :=
      by simp [NodeWalker.new]
    have hstep : (NodeWalker.new fs node base is_root opts true).nextStep fs =
        .ret (some (.ok ⟨some (.fromMeta base m m2.isSymlink), []⟩))
          { NodeWalker.new fs node base is_root opts true with
              yield_self := false } := by
      unfold NodeWalker.nextStep
      simp [hy, hb, hmeta, hsym]
    rw [NodeWalker.next]
    simp only [nextAux, hstep]
  · intro fs node base is_root opts
    simp [NodeWalker.new]
  · intro fs node base is_root opts hterm
    simp [NodeWalker.new, hterm]
  · intro fs w h
    exact nextAux_not_yield fs (w.measureW + 1) w h

/-- Witness for C9: over `fsFix`, the group root for the terminal `**` node
rooted at `r` self-emits `r` itself; a non-root walker on the same node has
no flag; a non-terminal node gives no flag; a cleared flag stays cleared. -/
theorem C9_self_emission_witness :
    (NodeWalker.new fsFix nodeWalkFix ["r"] true defaultOpts true).next
        fsFix =
      (some (.ok ⟨some (.fromMeta ["r"] ⟨true, false⟩ false), []⟩),
        { NodeWalker.new fsFix nodeWalkFix ["r"] true defaultOpts true with
            yield_self := false }) ∧
    (NodeWalker.new fsFix nodeWalkFix ["r"] true defaultOpts
        false).yield_self = false ∧
    (NodeWalker.new fsFix nodeFix ["r"] true defaultOpts true).yield_self =
      false ∧
    ((wDone.next fsFix).2).yield_self = false :=
  ⟨C9_self_emission.1 fsFix nodeWalkFix ["r"] true defaultOpts ⟨true, false⟩
      ⟨true, false⟩ rfl rfl rfl,
   C9_self_emission.2.1 fsFix nodeWalkFix ["r"] true defaultOpts,
   C9_self_emission.2.2.1 fsFix nodeFix ["r"] true defaultOpts rfl,
   C9_self_emission.2.2.2 fsFix wDone rfl⟩

/-! ## Claim C1 -/

/-- Helper: once the terminal slot is claimed it is never overwritten. -/
theorem dispatchStep_terminal_some (fs : FS) (opts : MultiGlobOptions)
    (dests : List WalkPlanNodeCompiled) (epath : List String)
    (is_dir : Bool) :
    ∀ (idx : List Nat) (entryOpt : Option DirEntry)
      (out : NodeWalkerOutput) (t : DirEntry), out.terminal = some t →
      (dispatchStep fs opts dests epath is_dir idx entryOpt out).terminal =
        some t := by
  intro idx
  induction idx with
  | nil =>
    intro e out t h
    simpa [dispatchStep] using h
  | cons i rest ih =>
    intro e out t h
    simp only [dispatchStep, h, Option.isNone_some, Bool.and_false,
      Bool.false_eq_true, if_false]
    exact ih e _ t rfl

/-- Helper: with an unclaimed slot, the dispatch loop claims the entry into
`terminal` exactly when some matched destination is terminal. -/
theorem dispatchStep_terminal_none (fs : FS) (opts : MultiGlobOptions)
    (dests : List WalkPlanNodeCompiled) (epath : List String)
    (is_dir : Bool) :
    ∀ (idx : List Nat) (e : DirEntry) (nodes : List NodeWalker),
      (dispatchStep fs opts dests epath is_dir idx (some e)
          ⟨none, nodes⟩).terminal =
        (if idx.any (fun i => (dests.getD i emptyCompiled).is_terminal) then
          some e else none) := by
  intro idx
  induction idx with
  | nil =>
    intro e nodes
    simp [dispatchStep]
  | cons i rest ih =>
    intro e nodes
    by_cases hterm : (dests.getD i emptyCompiled).is_terminal = true
    · simp only [dispatchStep, hterm, Option.isNone_none, Bool.and_true,
        if_true, List.any_cons, Bool.true_or]
      exact dispatchStep_terminal_some fs opts dests epath is_dir rest none
        _ e rfl
    · simp only [Bool.not_eq_true] at hterm
      simp only [dispatchStep, hterm, Option.isNone_none, Bool.false_and,
        Bool.false_eq_true, if_false, List.any_cons, Bool.false_or]
      exact ih e _

/-- Helper: the dispatch loop spawns, in matched-index order, one child per
matched destination with further destinations when the entry is a
directory. -/
theorem dispatchStep_nodes (fs : FS) (opts : MultiGlobOptions)
    (dests : List WalkPlanNodeCompiled) (epath : List String)
    (is_dir : Bool) :
    ∀ (idx : List Nat) (entryOpt : Option DirEntry)
      (out : NodeWalkerOutput),
      (dispatchStep fs opts dests epath is_dir idx entryOpt out).nodes =
        out.nodes ++ idx.filterMap (fun i =>
          if !(dests.getD i emptyCompiled).destinations.isNil && is_dir then
            some (NodeWalker.new fs (dests.getD i emptyCompiled) epath false
              opts false)
          else none) := by
  intro idx
  induction idx with
  | nil =>
    intro e out
    simp [dispatchStep]
  | cons i rest ih =>
    intro e out
    by_cases hsp : (!(dests.getD i emptyCompiled).destinations.isNil &&
        is_dir) = true
    · simp only [dispatchStep, hsp, if_true, List.filterMap_cons]
      rw [ih]
      simp
    · simp only [Bool.not_eq_true] at hsp
      simp only [dispatchStep, hsp, Bool.false_eq_true, if_false,
        List.filterMap_cons]
      rw [ih]

/-- Helper: every `Ok` output returned by one loop iteration of
`NodeWalker::next` carries a terminal entry or at least one spawned
child (the empty-output case `continue`s instead). -/
theorem nextStep_ok_guard (fs : FS) (w : NodeWalker)
    (out : NodeWalkerOutput) (w' : NodeWalker)
    (h : w.nextStep fs = .ret (some (.ok out)) w') :
    (out.terminal.isSome || !out.nodes.isEmpty) = true := by
  unfold NodeWalker.nextStep at h
  by_cases hy : w.yield_self = true
  · simp only [hy, if_true] at h
    cases hm : fs.metaOf w.base with
    | none =>
      simp only [hm] at h
      exact StepRes.noConfusion h
    | some m =>
      cases hm2 : fs.symlinkMeta w.base with
      | none =>
        simp only [hm, hm2] at h
        exact StepRes.noConfusion h
      | some m2 =>
        simp only [hm, hm2] at h
        injection h with h1 h2
        injection h1 with h1
        injection h1 with h1
        subst h1
        rfl
  · simp only [Bool.not_eq_true] at hy
    simp only [hy, Bool.false_eq_true, if_false] at h
    cases hst : w.state with
    | path paths index =>
      simp only [hst] at h
      by_cases hle : paths.length ≤ index
      · simp only [hle, if_true] at h
        injection h with h1 _
        exact Option.noConfusion h1
      · simp only [hle, if_false] at h
        cases hm : fs.symlinkMeta (paths.getD index []) with
        | none =>
          simp only [hm] at h
          exact StepRes.noConfusion h
        | some m =>
          simp only [hm] at h
          cases hm2 : (if m.isSymlink && w.opts.follow_links then
              fs.metaOf (paths.getD index []) else some m) with
          | none =>
            simp only [hm2] at h
            exact StepRes.noConfusion h
          | some m' =>
            simp only [hm2] at h
            split at h
            · rename_i hguard
              injection h with h1 _
              injection h1 with h1
              injection h1 with h1
              subst h1
              exact hguard
            · exact StepRes.noConfusion h
    | walk globset stream base_checked =>
      simp only [hst] at h
      split at h
      · injection h with h1 _
        exact Option.noConfusion h1
      · cases stream with
        | nil =>
          injection h with h1 _
          exact Option.noConfusion h1
        | cons hd rest =>
          cases hd with
          | error e =>
            simp only at h
            injection h with h1 _
            injection h1 with h1
            exact Except.noConfusion h1
          | ok we =>
            simp only at h
            cases hsp : stripBase w.base we.path with
            | none =>
              simp only [hsp] at h
              exact StepRes.noConfusion h
            | some rel =>
              simp only [hsp] at h
              split at h
              · exact StepRes.noConfusion h
              · split at h
                · rename_i hguard
                  injection h with h1 _
                  injection h1 with h1
                  injection h1 with h1
                  subst h1
                  exact hguard
                · exact StepRes.noConfusion h

/-- Helper: `nextStep_ok_guard` lifted through the fuelled loop. -/
theorem nextAux_ok_guard (fs : FS) :
    ∀ (fuel : Nat) (w : NodeWalker) (out : NodeWalkerOutput)
      (w' : NodeWalker), nextAux fs fuel w = (some (.ok out), w') →
      (out.terminal.isSome || !out.nodes.isEmpty) = true := by
  intro fuel
  induction fuel with
  | zero =>
    intro w out w' h
    simp only [nextAux] at h
    exact Option.noConfusion (congrArg Prod.fst h)
  | succ fuel ih =>
    intro w out w' h
    simp only [nextAux] at h
    cases hs : w.nextStep fs with
    | ret r w2 =>
      rw [hs] at h
      injection h with h1 h2
      subst h1
      exact nextStep_ok_guard fs w out w2 hs
    | again w2 =>
      rw [hs] at h
      exact ih w2 out w' h

/-- C1: candidate dispatch in `NodeWalker::next`: the candidate entry is
claimed into the output's terminal slot exactly when some matched
destination is terminal, and only once (later terminal destinations get
nothing: the slot holds the single entry); a child walker — non-root,
non-self-emitting, rooted at the entry's path — is spawned for
`destinations[i]` if and only if `destinations[i]` has a non-empty
destinations list and the entry's `file_type().is_dir()` holds; and an
output with neither a terminal nor spawned children is never emitted (the
loop continues instead). -/
theorem C1_candidate_dispatch :
    (∀ (fs : FS) (opts : MultiGlobOptions)
        (dests : List WalkPlanNodeCompiled) (entry : DirEntry)
        (idx : List Nat),
      (dispatch fs opts dests entry idx).terminal =
        (if idx.any (fun i => (dests.getD i emptyCompiled).is_terminal) then
          some entry else none)) ∧
    (∀ (fs : FS) (opts : MultiGlobOptions)
        (dests : List WalkPlanNodeCompiled) (entry : DirEntry)
        (idx : List Nat),
      (dispatch fs opts dests entry idx).nodes =
        idx.filterMap (fun i =>
          if !(dests.getD i emptyCompiled).destinations.isNil &&
              entry.isDir then
            some (NodeWalker.new fs (dests.getD i emptyCompiled) entry.path
              false opts false)
          else none)) ∧
    (∀ (fs : FS) (w : NodeWalker) (out : NodeWalkerOutput)
        (w' : NodeWalker), w.next fs = (some (.ok out), w') →
      (out.terminal.isSome || !out.nodes.isEmpty) = true) := by
  refine ⟨?_, ?_, ?_⟩
  · intro fs opts dests entry idx
    exact dispatchStep_terminal_none fs opts dests entry.path entry.isDir
      idx entry []
  · intro fs opts dests entry idx
    have h := dispatchStep_nodes fs opts dests entry.path entry.isDir idx
      (some entry) ⟨none, []⟩
    simpa [dispatch] using h
  · intro fs w out w' h
    exact nextAux_ok_guard fs (w.measureW + 1) w out w' h

/-- Witness for C1: the dispatch of the candidate `r/ab` (matching both
destinations of `nodeFix`) and the first `Ok` output of `rootFix`. -/
theorem C1_candidate_dispatch_witness :
    (dispatch fsFix defaultOpts nodeFix.destinations.toList
        (.fromWalk ⟨["r", "ab"], true⟩) [0, 1]).terminal =
      (if [0, 1].any (fun i =>
          (nodeFix.destinations.toList.getD i emptyCompiled).is_terminal)
        then some (.fromWalk ⟨["r", "ab"], true⟩) else none) ∧
    (dispatch fsFix defaultOpts nodeFix.destinations.toList
        (.fromWalk ⟨["r", "ab"], true⟩) [0, 1]).nodes =
      [0, 1].filterMap (fun i =>
        if !(nodeFix.destinations.toList.getD i
              emptyCompiled).destinations.isNil &&
            (DirEntry.fromWalk ⟨["r", "ab"], true⟩).isDir then
          some (NodeWalker.new fsFix
            (nodeFix.destinations.toList.getD i emptyCompiled)
            (DirEntry.fromWalk ⟨["r", "ab"], true⟩).path false defaultOpts
            false)
        else none) ∧
    (outRoot.terminal.isSome || !outRoot.nodes.isEmpty) = true :=
  ⟨C1_candidate_dispatch.1 fsFix defaultOpts nodeFix.destinations.toList
      (.fromWalk ⟨["r", "ab"], true⟩) [0, 1],
   C1_candidate_dispatch.2.1 fsFix defaultOpts nodeFix.destinations.toList
      (.fromWalk ⟨["r", "ab"], true⟩) [0, 1],
   C1_candidate_dispatch.2.2 fsFix rootFix outRoot rootAfter rfl⟩

/-! ## Claims C4 and C10: compiler invariants -/

mutual
/-- Helper: with `skip_invalid` set, node compilation never fails. -/
theorem compileNode_skip_ok : ∀ (o : GlobOracle) (n : WalkPlanNode),
    ∃ c, compileNode o true n = .ok c
  | o, .mk ty term pats => by
    by_cases hty : ty = WalkNodeType.path
    · obtain ⟨ds, hds⟩ := compilePatsAll_skip_ok o pats
      exact ⟨.mk (.path pats.keys) term ds,
        by simp [compileNode, hty, hds]⟩
    · by_cases hsb : o.setBuild (pats.keys.filter o.globNew) = true
      · obtain ⟨ds, hds⟩ := compilePatsKept_skip_ok o pats
        exact ⟨.mk (.walk (pats.keys.filter o.globNew)
            (ty == WalkNodeType.walk)) term ds,
          by simp [compileNode, hty, hsb, hds]⟩
      · exact ⟨.mk (.walk [] (ty == WalkNodeType.walk)) term .nil,
          by simp [compileNode, hty, hsb]⟩
/-- Helper: with `skip_invalid` set, compiling all children never fails. -/
theorem compilePatsAll_skip_ok : ∀ (o : GlobOracle) (p : PatMap),
    ∃ ds, compilePatsAll o true p = .ok ds
  | _, .nil => ⟨.nil, rfl⟩
  | o, .cons _ v rest => by
    obtain ⟨c, hc⟩ := compileNode_skip_ok o v
    obtain ⟨ds, hds⟩ := compilePatsAll_skip_ok o rest
    exact ⟨.cons c ds, by simp [compilePatsAll, hc, hds]⟩
/-- Helper: with `skip_invalid` set, compiling the kept children never
fails. -/
theorem compilePatsKept_skip_ok : ∀ (o : GlobOracle) (p : PatMap),
    ∃ ds, compilePatsKept o true p = .ok ds
  | _, .nil => ⟨.nil, rfl⟩
  | o, .cons k v rest => by
    by_cases hk : o.globNew k = true
    · obtain ⟨c, hc⟩ := compileNode_skip_ok o v
      obtain ⟨ds, hds⟩ := compilePatsKept_skip_ok o rest
      exact ⟨.cons c ds, by simp [compilePatsKept, hk, hc, hds]⟩
    · obtain ⟨ds, hds⟩ := compilePatsKept_skip_ok o rest
      exact ⟨ds, by simp [compilePatsKept, hk, hds]⟩
end

mutual
/-- Helper: a successfully compiled node satisfies the destinations-length
invariant at every node of its tree. -/
theorem compileNode_destInv : ∀ (o : GlobOracle) (skip : Bool)
    (n : WalkPlanNode) (c : WalkPlanNodeCompiled),
    compileNode o skip n = .ok c → destInvariant c = true
  | o, skip, .mk ty term pats, c => by
    intro h
    by_cases hty : ty = WalkNodeType.path
    · simp only [compileNode, hty, if_true] at h
      cases hall : compilePatsAll o skip pats with
      | error e =>
        rw [hall] at h
        exact Except.noConfusion h
      | ok ds =>
        rw [hall] at h
        injection h with h1
        subst h1
        obtain ⟨hinv, hlen⟩ := compilePatsAll_destInv o skip pats ds hall
        simp [destInvariant, matcherLen, hinv, hlen]
    · simp only [compileNode, hty, if_false] at h
      split at h
      · exact Except.noConfusion h
      · by_cases hsb : o.setBuild (pats.keys.filter o.globNew) = true
        · simp only [hsb, if_true] at h
          cases hkept : compilePatsKept o skip pats with
          | error e =>
            rw [hkept] at h
            exact Except.noConfusion h
          | ok ds =>
            rw [hkept] at h
            injection h with h1
            subst h1
            obtain ⟨hinv, hlen⟩ := compilePatsKept_destInv o skip pats ds
              hkept
            simp [destInvariant, matcherLen, hinv, hlen]
        · simp only [hsb, Bool.false_eq_true, if_false] at h
          split at h
          · injection h with h1
            subst h1
            simp [destInvariant, matcherLen, CompiledList.allInvariant,
              CompiledList.length]
          · exact Except.noConfusion h
/-- Helper: compiled children of the `Path` branch all satisfy the
invariant, and there are as many as there are children. -/
theorem compilePatsAll_destInv : ∀ (o : GlobOracle) (skip : Bool)
    (p : PatMap) (ds : CompiledList), compilePatsAll o skip p = .ok ds →
    CompiledList.allInvariant ds = true ∧ ds.length = p.keys.length
  | o, skip, .nil, ds => by
    intro h
    injection h with h1
    subst h1
    simp [CompiledList.allInvariant, CompiledList.length, PatMap.keys]
  | o, skip, .cons k v rest, ds => by
    intro h
    simp only [compilePatsAll] at h
    cases hc : compileNode o skip v with
    | error e =>
      rw [hc] at h
      exact Except.noConfusion h
    | ok c =>
      rw [hc] at h
      cases hrest : compilePatsAll o skip rest with
      | error e =>
        rw [hrest] at h
        exact Except.noConfusion h
      | ok ds' =>
        rw [hrest] at h
        injection h with h1
        subst h1
        obtain ⟨hinv, hlen⟩ := compilePatsAll_destInv o skip rest ds' hrest
        have hcinv := compileNode_destInv o skip v c hc
        simp [CompiledList.allInvariant, CompiledList.length, PatMap.keys,
          hinv, hlen, hcinv]
/-- Helper: compiled kept children of the glob branch all satisfy the
invariant, and there are as many as keys whose glob compiles. -/
theorem compilePatsKept_destInv : ∀ (o : GlobOracle) (skip : Bool)
    (p : PatMap) (ds : CompiledList), compilePatsKept o skip p = .ok ds →
    CompiledList.allInvariant ds = true ∧
      ds.length = (p.keys.filter o.globNew).length
  | o, skip, .nil, ds => by
    intro h
    injection h with h1
    subst h1
    simp [CompiledList.allInvariant, CompiledList.length, PatMap.keys]
  | o, skip, .cons k v rest, ds => by
    intro h
    simp only [compilePatsKept] at h
    by_cases hk : o.globNew k = true
    · simp only [hk, if_true] at h
      cases hc : compileNode o skip v with
      | error e =>
        rw [hc] at h
        exact Except.noConfusion h
      | ok c =>
        rw [hc] at h
        cases hrest : compilePatsKept o skip rest with
        | error e =>
          rw [hrest] at h
          exact Except.noConfusion h
        | ok ds' =>
          rw [hrest] at h
          injection h with h1
          subst h1
          obtain ⟨hinv, hlen⟩ := compilePatsKept_destInv o skip rest ds'
            hrest
          have hcinv := compileNode_destInv o skip v c hc
          simp [CompiledList.allInvariant, CompiledList.length, PatMap.keys,
            List.filter_cons, hk, hinv, hlen, hcinv]
    · simp only [Bool.not_eq_true] at hk
      simp only [hk, Bool.false_eq_true, if_false] at h
      obtain ⟨hinv, hlen⟩ := compilePatsKept_destInv o skip rest ds h
      refine ⟨hinv, ?_⟩
      simp [PatMap.keys, List.filter_cons, hk, hlen]
end

/-- C4: every compiled node satisfies `destinations.length = number of
patterns in its matcher` at every node of the tree; and with
`skip_invalid`, a glob-compilation failure drops that child from both the
matcher and the destinations (the matcher keys are exactly the keys whose
glob compiles, aligned with as many destinations), while a whole-set build
failure yields an empty matcher with empty destinations. -/
theorem C4_destinations_invariant :
    (∀ (o : GlobOracle) (skip : Bool) (n : WalkPlanNode)
        (c : WalkPlanNodeCompiled), compileNode o skip n = .ok c →
      destInvariant c = true) ∧
    (∀ (o : GlobOracle) (n : WalkPlanNode), n.node_type ≠ .path →
      ∃ ds : CompiledList,
        compileNode o true n =
          .ok (.mk (.walk
                (if o.setBuild (n.patterns.keys.filter o.globNew) then
                  n.patterns.keys.filter o.globNew else [])
                (n.node_type == .walk)) n.is_terminal ds) ∧
        ds.length =
          (if o.setBuild (n.patterns.keys.filter o.globNew) then
            (n.patterns.keys.filter o.globNew).length else 0)) := by
  constructor
  · exact fun o skip n c h => compileNode_destInv o skip n c h
  · intro o n hty
    cases n with
    | mk ty term pats =>
      simp only [WalkPlanNode.node_type] at hty
      by_cases hsb : o.setBuild (pats.keys.filter o.globNew) = true
      · obtain ⟨ds, hds⟩ := compilePatsKept_skip_ok o pats
        obtain ⟨_, hlen⟩ := compilePatsKept_destInv o true pats ds hds
        refine ⟨ds, ?_, ?_⟩
        · simp [compileNode, hty, hsb, hds, WalkPlanNode.patterns,
            WalkPlanNode.is_terminal, WalkPlanNode.node_type]
        · simp [hsb, WalkPlanNode.patterns, hlen]
      · refine ⟨.nil, ?_, ?_⟩
        · simp [compileNode, hty, hsb, WalkPlanNode.patterns,
            WalkPlanNode.is_terminal, WalkPlanNode.node_type]
        · simp [hsb, WalkPlanNode.patterns, CompiledList.length]

/-- An oracle that rejects the single glob pattern `b*`. -/
def oBad : GlobOracle := ⟨fun k => !(k == "b*"), fun _ => true⟩

/-- A glob plan node with children `a*` and `b*`. -/
def nGlob : WalkPlanNode :=
  .mk .glob false (.cons "a*" .terminal (.cons "b*" .terminal .nil))

/-- Witness for C4: the invariant evaluated on the compiled fixture, and
the skip-mode shape at `nGlob` under `oBad` (which drops `b*`). -/
theorem C4_destinations_invariant_witness :
    destInvariant nodeFix = true ∧
    (∃ ds : CompiledList,
      compileNode oBad true nGlob =
        .ok (.mk (.walk
              (if oBad.setBuild (nGlob.patterns.keys.filter oBad.globNew)
                then nGlob.patterns.keys.filter oBad.globNew else [])
              (nGlob.node_type == .walk)) nGlob.is_terminal ds) ∧
      ds.length =
        (if oBad.setBuild (nGlob.patterns.keys.filter oBad.globNew) then
          (nGlob.patterns.keys.filter oBad.globNew).length else 0)) :=
  ⟨C4_destinations_invariant.1 allOkOracle false
      (WalkPlanNode.build ["a*/x", "ab*/y"]) nodeFix rfl,
   C4_destinations_invariant.2 oBad nGlob (by decide)⟩

/-- C10: under `skip_invalid = true` compilation is total — both
`WalkPlanNodeCompiled::new` on any plan node and the whole
`build_skip_invalid` pipeline over any clustered group list return `Ok`,
so the internal `unwrap` in `build_skip_invalid` cannot panic. -/
theorem C10_build_skip_invalid_total :
    (∀ (o : GlobOracle) (n : WalkPlanNode),
      ∃ c, compileNode o true n = .ok c) ∧
    (∀ (fs : FS) (o : GlobOracle) (selfBase : List String)
        (opts : MultiGlobOptions)
        (groups : List (List String × List String)),
      ∃ mg, implBuild fs o selfBase opts groups true = .ok mg) := by
  constructor
  · exact compileNode_skip_ok
  · intro fs o selfBase opts groups
    have key : ∀ (gs : List (List String × List String))
        (mg : MultiGlobWalker),
        ∃ mg', gs.foldl
          (fun (acc : Except Unit MultiGlobWalker)
              (g : List String × List String) =>
            match acc with
            | .error e => .error e
            | .ok m =>
              MultiGlobWalker.add fs o m (selfBase ++ g.1) (g.1 = []) g.2
                true)
          (.ok mg) = .ok mg' := by
      intro gs
      induction gs with
      | nil => exact fun mg => ⟨mg, rfl⟩
      | cons g rest ih =>
        intro mg
        obtain ⟨node, hnode⟩ := compileNode_skip_ok o
          (WalkPlanNode.build g.2)
        have : MultiGlobWalker.add fs o mg (selfBase ++ g.1) (g.1 = []) g.2
            true = .ok { mg with
              stack := NodeWalker.new fs node (selfBase ++ g.1) (g.1 = [])
                mg.opts true :: mg.stack } := by
          simp [MultiGlobWalker.add, hnode]
        simpa [List.foldl, this] using ih _
    obtain ⟨mg', hmg⟩ := key groups ⟨opts, []⟩
    exact ⟨mg'.rev, by simp [implBuild, hmg]⟩

/-! ## Claim C3 -/

/-- Counterexample to C3: for the single pattern `"."`,
`WalkPlanNode::build` does not return a single-node plan with a terminal
root — the root is non-terminal (it has a `"."` child instead, because
`Path::components` keeps a leading `.`). -/
theorem C3_counterexample :
    ¬ ((WalkPlanNode.build ["."]).is_terminal = true ∧
      (WalkPlanNode.build ["."]).patterns = .nil) := by
  intro h
  have hfalse : (WalkPlanNode.build ["."]).is_terminal = false := rfl
  rw [h.1] at hfalse
  exact Bool.noConfusion hfalse

/-- C3 amended: the empty pattern yields a single-node plan with a terminal
root, while the pattern `"."` yields a non-terminal root with a single
child keyed `"."` that is a terminal leaf. -/
theorem C3_empty_and_dot_plans :
    WalkPlanNode.build [""] = .mk .path true .nil ∧
    WalkPlanNode.build ["."] =
      .mk .path false (.cons "." (.mk .path true .nil) .nil) :=
  ⟨rfl, rfl⟩

/-! ## Claim C5 -/

theorem insertKV_allLeaf (k : String) (v : WalkPlanNode)
    (hv : (v.is_terminal && v.patterns.isNil) = true) :
    ∀ (m : PatMap), m.allLeaf = true → (m.insertKV k v).allLeaf = true
  | .nil, _ => by simp [PatMap.insertKV, PatMap.allLeaf, hv]
  | .cons k' v' rest, hm => by
    simp only [PatMap.allLeaf, Bool.and_eq_true] at hm
    unfold PatMap.insertKV
    split
    · simp [PatMap.allLeaf, hv, hm.1.1, hm.1.2, hm.2]
    · split
      · simp [PatMap.allLeaf, hv, hm.2]
      · simp [PatMap.allLeaf, hm.1.1, hm.1.2,
          insertKV_allLeaf k v hv rest hm.2]

theorem insertKV_allChildLeafInv (k : String) (v : WalkPlanNode)
    (hv : walkLeafInv v = true) :
    ∀ (m : PatMap), m.allChildLeafInv = true →
      (m.insertKV k v).allChildLeafInv = true
  | .nil, _ => by simp [PatMap.insertKV, PatMap.allChildLeafInv, hv]
  | .cons k' v' rest, hm => by
    simp only [PatMap.allChildLeafInv, Bool.and_eq_true] at hm
    unfold PatMap.insertKV
    split
    · simp [PatMap.allChildLeafInv, hv, hm.1, hm.2]
    · split
      · simp [PatMap.allChildLeafInv, hv, hm.2]
      · simp [PatMap.allChildLeafInv, hm.1,
          insertKV_allChildLeafInv k v hv rest hm.2]

theorem insertKV_keysNoSlash (k : String) (v : WalkPlanNode)
    (hk : noSlash k = true) :
    ∀ (m : PatMap), m.keysNoSlash = true →
      (m.insertKV k v).keysNoSlash = true
  | .nil, _ => by simp [PatMap.insertKV, PatMap.keysNoSlash, hk]
  | .cons k' v' rest, hm => by
    simp only [PatMap.keysNoSlash, Bool.and_eq_true] at hm
    unfold PatMap.insertKV
    split
    · simp [PatMap.keysNoSlash, hk, hm.1, hm.2]
    · split
      · simp [PatMap.keysNoSlash, hk, hm.2]
      · simp [PatMap.keysNoSlash, hm.1,
          insertKV_keysNoSlash k v hk rest hm.2]

theorem insertKV_allChildKeyInv (k : String) (v : WalkPlanNode)
    (hv : planKeyInv v = true) :
    ∀ (m : PatMap), m.allChildKeyInv = true →
      (m.insertKV k v).allChildKeyInv = true
  | .nil, _ => by simp [PatMap.insertKV, PatMap.allChildKeyInv, hv]
  | .cons k' v' rest, hm => by
    simp only [PatMap.allChildKeyInv, Bool.and_eq_true] at hm
    unfold PatMap.insertKV
    split
    · simp [PatMap.allChildKeyInv, hv, hm.1, hm.2]
    · split
      · simp [PatMap.allChildKeyInv, hv, hm.2]
      · simp [PatMap.allChildKeyInv, hm.1,
          insertKV_allChildKeyInv k v hv rest hm.2]

theorem lookup_allChildLeafInv (k : String) :
    ∀ (m : PatMap) (v : WalkPlanNode), m.allChildLeafInv = true →
      m.lookup k = some v → walkLeafInv v = true
  | .nil, v, _, h => Option.noConfusion h
  | .cons k' v' rest, v, hm, h => by
    simp only [PatMap.allChildLeafInv, Bool.and_eq_true] at hm
    simp only [PatMap.lookup] at h
    split at h
    · injection h with h1
      subst h1
      exact hm.1
    · exact lookup_allChildLeafInv k rest v hm.2 h

theorem lookup_allChildKeyInv (k : String) :
    ∀ (m : PatMap) (v : WalkPlanNode), m.allChildKeyInv = true →
      m.lookup k = some v → planKeyInv v = true
  | .nil, v, _, h => Option.noConfusion h
  | .cons k' v' rest, v, hm, h => by
    simp only [PatMap.allChildKeyInv, Bool.and_eq_true] at hm
    simp only [PatMap.lookup] at h
    split at h
    · injection h with h1
      subst h1
      exact hm.1
    · exact lookup_allChildKeyInv k rest v hm.2 h

theorem foldl_terminal_allLeaf (l : List String) :
    ∀ (m : PatMap), m.allLeaf = true →
      (l.foldl (fun m p => m.insertKV p .terminal) m).allLeaf = true := by
  induction l with
  | nil => exact fun m hm => hm
  | cons p rest ih =>
    intro m hm
    exact ih _ (insertKV_allLeaf p .terminal rfl m hm)

theorem foldl_terminal_allChildLeafInv (l : List String) :
    ∀ (m : PatMap), m.allChildLeafInv = true →
      (l.foldl (fun m p => m.insertKV p .terminal) m).allChildLeafInv =
        true := by
  induction l with
  | nil => exact fun m hm => hm
  | cons p rest ih =>
    intro m hm
    exact ih _ (insertKV_allChildLeafInv p .terminal rfl m hm)

theorem foldl_terminal_allChildKeyInv (l : List String) :
    ∀ (m : PatMap), m.allChildKeyInv = true →
      (l.foldl (fun m p => m.insertKV p .terminal) m).allChildKeyInv =
        true := by
  induction l with
  | nil => exact fun m hm => hm
  | cons p rest ih =>
    intro m hm
    exact ih _ (insertKV_allChildKeyInv p .terminal rfl m hm)

/-- Helper: `WalkPlanNode::insert` preserves both C5 invariants when the
inserted parts are single segments. -/
theorem insert_preserves_inv :
    ∀ (parts : List String) (n : WalkPlanNode), walkLeafInv n = true →
      planKeyInv n = true → (∀ part ∈ parts, noSlash part = true) →
      walkLeafInv (n.insert parts) = true ∧
        planKeyInv (n.insert parts) = true := by
  intro parts
  induction parts with
  | nil =>
    intro n h1 h2 _
    cases n with
    | mk ty term pats =>
      simp only [WalkPlanNode.insert, WalkPlanNode.node_type,
        WalkPlanNode.patterns]
      simp only [walkLeafInv, planKeyInv] at h1 h2 ⊢
      exact ⟨h1, h2⟩
  | cons part tail ih =>
    intro n h1 h2 hparts
    cases n with
    | mk ty term pats =>
      simp only [walkLeafInv, planKeyInv, Bool.and_eq_true] at h1 h2
      by_cases hw : ty = WalkNodeType.walk
      · subst hw
        have hleaf : pats.allLeaf = true := by simpa using h1.1
        have ha := insertKV_allLeaf (joinParts (part :: tail)) .terminal rfl
          pats hleaf
        have hb := insertKV_allChildLeafInv (joinParts (part :: tail))
          .terminal rfl pats h1.2
        have hc := insertKV_allChildKeyInv (joinParts (part :: tail))
          .terminal rfl pats h2.2
        simp only [WalkPlanNode.insert, WalkPlanNode.node_type,
          WalkPlanNode.is_terminal, WalkPlanNode.patterns, if_pos rfl]
        constructor
        · simp [walkLeafInv, ha, hb]
        · simp [planKeyInv, hc]
      · simp only [WalkPlanNode.insert, WalkPlanNode.node_type,
          WalkPlanNode.is_terminal, WalkPlanNode.patterns, if_neg hw]
        by_cases hd : hasDoubleStar part = true
        · simp only [hd, if_true]
          have ha := insertKV_allLeaf (joinParts (part :: tail)) .terminal
            rfl _ (foldl_terminal_allLeaf
              ((WalkPlanNode.mk ty term pats).collect "") PatMap.nil rfl)
          have hb := insertKV_allChildLeafInv (joinParts (part :: tail))
            .terminal rfl _ (foldl_terminal_allChildLeafInv
              ((WalkPlanNode.mk ty term pats).collect "") PatMap.nil rfl)
          have hc := insertKV_allChildKeyInv (joinParts (part :: tail))
            .terminal rfl _ (foldl_terminal_allChildKeyInv
              ((WalkPlanNode.mk ty term pats).collect "") PatMap.nil rfl)
          constructor
          · simp [walkLeafInv, ha, hb]
          · simp [planKeyInv, hc]
        · simp only [Bool.not_eq_true] at hd
          simp only [hd, Bool.false_eq_true, if_false]
          have hkeys : pats.keysNoSlash = true := by
            have h21 := h2.1
            rw [Bool.or_eq_true] at h21
            rcases h21 with h | h
            · exact absurd (by simpa using h) hw
            · exact h
          have hchild : walkLeafInv ((pats.lookup part).getD emptyPlanNode)
              = true := by
            cases hl : pats.lookup part with
            | none => rfl
            | some v => exact lookup_allChildLeafInv part pats v h1.2 hl
          have hchildk : planKeyInv ((pats.lookup part).getD emptyPlanNode)
              = true := by
            cases hl : pats.lookup part with
            | none => rfl
            | some v => exact lookup_allChildKeyInv part pats v h2.2 hl
          have hpart : noSlash part = true := hparts part (by simp)
          have htail : ∀ q ∈ tail, noSlash q = true := by
            intro q hq
            exact hparts q (by simp [hq])
          obtain ⟨ih1, ih2⟩ := ih ((pats.lookup part).getD emptyPlanNode)
            hchild hchildk htail
          have hb := insertKV_allChildLeafInv part _ ih1 pats h1.2
          have hc := insertKV_allChildKeyInv part _ ih2 pats h2.2
          have hks := insertKV_keysNoSlash part
            (((pats.lookup part).getD emptyPlanNode).insert tail) hpart pats
            hkeys
          have htyw : (ty == WalkNodeType.walk) = false := by
            cases ty <;> simp_all
          by_cases hg : isGlobLike part = true
          · simp only [hg, if_true]
            constructor
            · simp [walkLeafInv, hb]
            · simp [planKeyInv, hc, hks]
          · simp only [Bool.not_eq_true] at hg
            simp only [hg, Bool.false_eq_true, if_false]
            constructor
            · simp [walkLeafInv, hb, htyw]
            · simp [planKeyInv, hc, hks]

theorem splitSlashAux_noSlash :
    ∀ (l acc : List Char), (∀ c ∈ acc, c ≠ '/') →
      ∀ piece ∈ splitSlashAux acc l, ∀ c ∈ piece, c ≠ '/' := by
  intro l
  induction l with
  | nil =>
    intro acc hacc piece hp c hc
    simp only [splitSlashAux, List.mem_singleton] at hp
    subst hp
    exact hacc c (by simpa using hc)
  | cons d rest ih =>
    intro acc hacc piece hp c hc
    simp only [splitSlashAux] at hp
    by_cases hd : d = '/'
    · simp only [hd, if_true, List.mem_cons] at hp
      rcases hp with hp | hp
      · subst hp
        exact hacc c (by simpa using hc)
      · exact ih [] (by simp) piece hp c hc
    · simp only [hd, if_false] at hp
      refine ih (d :: acc) ?_ piece hp c hc
      intro c' hc'
      rcases List.mem_cons.mp hc' with h | h
      · subst h; exact hd
      · exact hacc c' h

/-- Helper: every component of a relative pattern is a single segment. -/
theorem pathComponents_noSlash (s : String)
    (h : s.data.headD ' ' ≠ '/') :
    ∀ p ∈ pathComponents s, noSlash p = true := by
  intro p hp
  unfold pathComponents at hp
  simp only [h, if_false] at hp
  have hsplit : ∀ q ∈ splitSlash s, noSlash q = true := by
    intro q hq
    unfold splitSlash at hq
    simp only [List.mem_map] at hq
    obtain ⟨piece, hpiece, rfl⟩ := hq
    have := splitSlashAux_noSlash s.data [] (by simp) piece hpiece
    simp only [noSlash, List.all_eq_true]
    intro c hc
    simpa using this c hc
  split at hp
  · rcases List.mem_cons.mp hp with rfl | hp
    · rfl
    · exact hsplit p (List.mem_of_mem_filter hp)
  · exact hsplit p (List.mem_of_mem_filter hp)

/-- C5: in every plan tree built by `WalkPlanNode::build` from relative
patterns, every `Walk` node has only terminal leaf children (so no `Walk`
or `Glob` node is ever nested beneath a `Walk` node), and every
`Path`/`Glob` node keys its children by single segments — only `Walk` nodes
hold fully joined multi-segment path keys. -/
theorem C5_walk_children_terminal_leaves (patterns : List String)
    (hrel : ∀ p ∈ patterns, p.data.headD ' ' ≠ '/') :
    walkLeafInv (WalkPlanNode.build patterns) = true ∧
      planKeyInv (WalkPlanNode.build patterns) = true := by
  unfold WalkPlanNode.build
  have key : ∀ (ps : List String) (n : WalkPlanNode),
      (∀ p ∈ ps, p.data.headD ' ' ≠ '/') →
      walkLeafInv n = true → planKeyInv n = true →
      walkLeafInv (ps.foldl (fun root p => root.insert (pathComponents p))
          n) = true ∧
        planKeyInv (ps.foldl (fun root p => root.insert (pathComponents p))
          n) = true := by
    intro ps
    induction ps with
    | nil => exact fun n _ h1 h2 => ⟨h1, h2⟩
    | cons p rest ih =>
      intro n hps h1 h2
      obtain ⟨h1', h2'⟩ := insert_preserves_inv (pathComponents p) n h1 h2
        (pathComponents_noSlash p (hps p (by simp)))
      exact ih _ (fun q hq => hps q (by simp [hq])) h1' h2'
  exact key patterns emptyPlanNode hrel rfl rfl

/-- Witness for C5: the invariants hold on the plan built from a mixed
pattern list with a `**`, a glob and a multi-segment literal. -/
theorem C5_walk_children_terminal_leaves_witness :
    walkLeafInv (WalkPlanNode.build ["a/**/b", "c*", "d/e"]) = true ∧
      planKeyInv (WalkPlanNode.build ["a/**/b", "c*", "d/e"]) = true :=
  C5_walk_children_terminal_leaves ["a/**/b", "c*", "d/e"] (by decide)

/-! ## Claim C2 -/

/-- Helper: one loop iteration of the top-level walker only touches the
stack above a fixed lower part. -/
theorem mgStep_append (fs : FS) (w : NodeWalker) (t s2 : List NodeWalker) :
    mgStep fs (w :: (t ++ s2)) =
      (mgStep fs (w :: t)).map (fun pr => (pr.1, pr.2 ++ s2)) := by
  simp only [mgStep]
  cases w.next fs with
  | mk r w' =>
    cases r with
    | none => simp
    | some item =>
      cases item with
      | error e => simp
      | ok out => simp

theorem mgRunAux_nil (fs : FS) : ∀ (fuel : Nat), mgRunAux fs fuel [] =
    ([], []) := by
  intro fuel
  cases fuel <;> rfl

/-- Helper: one loop iteration on a non-empty stack always produces a
step. -/
theorem mgStep_cons_some (fs : FS) (w : NodeWalker)
    (rest : List NodeWalker) : mgStep fs (w :: rest) ≠ none := by
  simp only [mgStep]
  cases w.next fs with
  | mk r w' =>
    cases r with
    | none => simp
    | some item =>
      cases item with
      | error e => simp
      | ok out => simp

/-- Helper: a fully drained run is stable under extra fuel. -/
theorem mgRunAux_extend (fs : FS) :
    ∀ (fuel k : Nat) (s : List NodeWalker)
      (items : List (Except Nat DirEntry)),
      mgRunAux fs fuel s = (items, []) →
      mgRunAux fs (fuel + k) s = (items, []) := by
  intro fuel
  induction fuel with
  | zero =>
    intro k s items h
    simp only [mgRunAux] at h
    injection h with h1 h2
    subst h1
    subst h2
    simpa using mgRunAux_nil fs k
  | succ fuel ih =>
    intro k s items h
    cases s with
    | nil =>
      rw [mgRunAux_nil fs (fuel + 1)] at h
      injection h with h1 _
      subst h1
      exact mgRunAux_nil fs (fuel + 1 + k)
    | cons w rest =>
      simp only [mgRunAux] at h
      cases hstep : mgStep fs (w :: rest) with
      | none => exact absurd hstep (mgStep_cons_some fs w rest)
      | some pr =>
        obtain ⟨itemO, s'⟩ := pr
        rw [hstep] at h
        simp only [] at h
        cases hrun : mgRunAux fs fuel s' with
        | mk is sf =>
          rw [hrun] at h
          injection h with h1 h2
          subst h2
          have hf : fuel + 1 + k = (fuel + k) + 1 := by omega
          rw [hf]
          simp only [mgRunAux, hstep, ih k s' is hrun]
          exact congrArg (fun l => (l, ([] : List NodeWalker))) h1

/-- Helper (C2, across groups): if the upper part of the stack drains fully
yielding `items1` and the lower part drains fully yielding `items2`, the
combined stack drains to `items1 ++ items2` — each group's whole output
precedes the next group's. -/
theorem mgRunAux_concat (fs : FS) :
    ∀ (f1 f2 : Nat) (s1 s2 : List NodeWalker)
      (items1 items2 : List (Except Nat DirEntry)),
      mgRunAux fs f1 s1 = (items1, []) →
      mgRunAux fs f2 s2 = (items2, []) →
      mgRunAux fs (f1 + f2) (s1 ++ s2) = (items1 ++ items2, []) := by
  intro f1
  induction f1 with
  | zero =>
    intro f2 s1 s2 items1 items2 h1 h2
    simp only [mgRunAux] at h1
    injection h1 with h11 h12
    subst h11
    subst h12
    simpa using h2
  | succ f1 ih =>
    intro f2 s1 s2 items1 items2 h1 h2
    cases s1 with
    | nil =>
      rw [mgRunAux_nil fs (f1 + 1)] at h1
      injection h1 with h11 _
      subst h11
      simp only [List.nil_append, List.nil_append]
      have : f1 + 1 + f2 = f2 + (f1 + 1) := by omega
      rw [this]
      simpa using mgRunAux_extend fs f2 (f1 + 1) s2 items2 h2
    | cons w t =>
      simp only [mgRunAux] at h1
      cases hstep : mgStep fs (w :: t) with
      | none => exact absurd hstep (mgStep_cons_some fs w t)
      | some pr =>
        obtain ⟨itemO, s'⟩ := pr
        rw [hstep] at h1
        simp only [] at h1
        cases hrun : mgRunAux fs f1 s' with
        | mk is sf =>
          rw [hrun] at h1
          injection h1 with h11 h12
          subst h12
          have hstep2 : mgStep fs ((w :: t) ++ s2) =
              some (itemO, s' ++ s2) := by
            rw [List.cons_append, mgStep_append fs w t s2, hstep]
            rfl
          have hrec := ih f2 s' s2 is items2 hrun h2
          show mgRunAux fs (f1 + 1 + f2) ((w :: t) ++ s2) =
            (items1 ++ items2, [])
          have hfuel : f1 + 1 + f2 = (f1 + f2) + 1 := by omega
          rw [hfuel]
          simp only [mgRunAux, hstep2, hrec]
          subst h11
          simp

/-- Counterexample to C2 (lexicographic order within a sibling layer): over
the unchanged filesystem `fsFix` (tree `r/ab/{x,y}`, sorted streams), the
top-level walker built for the single group `["a*/x", "ab*/y"]` rooted at
`r` yields `r/ab/y` strictly before its lexicographically smaller sibling
`r/ab/x`, because the candidate `r/ab` matches both destinations and the
two spawned child walkers drain in reverse destination order. -/
theorem C2_counterexample :
    (mgRunAux fsFix 50 stackFix).1 =
      [.ok (.fromMeta ["r", "ab", "y"] ⟨false, false⟩ false),
        .ok (.fromMeta ["r", "ab", "x"] ⟨false, false⟩ false)] ∧
    (mgRunAux fsFix 50 stackFix).2 = [] ∧
    strLtB (joinParts ["r", "ab", "x"]) (joinParts ["r", "ab", "y"]) =
      true :=
  ⟨rfl, rfl, rfl⟩

/-- C2 amended: across groups, entries follow the original group order
(the whole output of the stack's upper group precedes the lower groups'
output); within one group, an entry that is terminal at the current node is
yielded in the very step that pushes the child walkers spawned from it —
hence before all of their entries, the children stacked LIFO with the last
destination's child on top. Lexicographic order within a sibling layer is
not guaranteed (see the counterexample). -/
theorem C2_amended_ordering :
    (∀ (fs : FS) (f1 f2 : Nat) (s1 s2 : List NodeWalker)
        (items1 items2 : List (Except Nat DirEntry)),
      mgRunAux fs f1 s1 = (items1, []) →
      mgRunAux fs f2 s2 = (items2, []) →
      mgRunAux fs (f1 + f2) (s1 ++ s2) = (items1 ++ items2, [])) ∧
    (∀ (fs : FS) (fuel : Nat) (w : NodeWalker) (rest : List NodeWalker)
        (out : NodeWalkerOutput) (w' : NodeWalker) (t : DirEntry),
      w.next fs = (some (.ok out), w') → out.terminal = some t →
      mgNextAux fs (fuel + 1) (w :: rest) =
        (some (.ok t), out.nodes.reverse ++ w' :: rest)) := by
  constructor
  · exact mgRunAux_concat
  · intro fs fuel w rest out w' t h ht
    simp only [mgNextAux, mgStep, h, ht, Option.map]

/-- Witness for C2 amended: concatenating the drained runs of `[wTermY]`
and `[wDone]`, and the terminal-before-children step at `wTermY`. -/
theorem C2_amended_ordering_witness :
    mgRunAux fsFix (3 + 2) ([wTermY] ++ [wDone]) = ([.ok entryY] ++ [], [])
      ∧
    mgNextAux fsFix (0 + 1) [wTermY] =
      (some (.ok entryY),
        (NodeWalkerOutput.mk (some entryY) []).nodes.reverse ++
          [wTermYAfter]) :=
  ⟨C2_amended_ordering.1 fsFix 3 2 [wTermY] [wDone] [.ok entryY] [] rfl rfl,
   C2_amended_ordering.2 fsFix 0 wTermY [] ⟨some entryY, []⟩ wTermYAfter
     entryY rfl rfl⟩

end Multiglob
